import Mathlib

set_option autoImplicit false

/-!
Shallow embedding of the `inertia` Go server adapter — the request
classification, prop-resolution and response-negotiation core found in
`renderer.go`, `middleware.go` and `prop.go` of the repository.

Modelling conventions:
* Go `map[string]T` values are embedded as association lists built from the
  empty list with `goInsert`, which replaces the binding in place when the key
  is present and appends otherwise — exactly Go map insertion semantics.
* A prop's resolution (`prop.value(ctx)`) either yields a value or an error;
  it is embedded as `Except String Val`, where the lazy function's outcome on
  the current request is stored in the prop (`valFn`).
* Go's `(nil, err)` / `(m, nil)` return pairs become `Except String m`: an
  error result carries no mapping, mirroring the source exactly.
* The bounded worker pool (`pond`) used for concurrent props is embedded as a
  deterministic traversal in submission order: every task's wrapped error is
  produced per task and the group wait reports the first error; on success the
  results are inserted in submission order, exactly as the loop after
  `group.Wait()` does.  The pool size does not influence the content of the
  result, so the concurrency budget is threaded but uninterpreted.
-/


/-- Val is the embedding of the dynamic (`any`) prop values that occur in the
claims: plain values, the `map[string]string` validation-error map, and the
nested `map[string]map[string]string` shape used for non-default error bags. -/
inductive Val where
  | vNil : Val
  | vInt : Int → Val
  | vStr : String → Val
  | vErrMap : List (String × String) → Val
  | vNested : List (String × List (String × String)) → Val
  deriving DecidableEq, Repr

/-- mlookup finds the value bound to a key in an embedded Go map
(first binding; maps built with `goInsert` from `[]` bind each key once). -/
def mlookup {α : Type} : List (String × α) → String → Option α
  | [], _ => none
  | (k', v) :: rest, k => if k' = k then some v else mlookup rest k

/-- goInsert is Go map insertion `m[k] = v`: replace the binding in place if
the key is present, append a fresh binding otherwise. -/
def goInsert {α : Type} : List (String × α) → String → α → List (String × α)
  | [], k, v => [(k, v)]
  | (k', v') :: rest, k, v =>
    if k' = k then (k, v) :: rest else (k', v') :: goInsert rest k v

/-- mkeys lists the keys of an embedded Go map in binding order. -/
def mkeys {α : Type} (m : List (String × α)) : List String := m.map Prod.fst

/-- DefaultErrorBag mirrors the constant of the same name: the default bag is
the empty string. -/
def DefaultErrorBag : String := ""

/-- DefaultDeferredGroup mirrors the constant of the same name. -/
def DefaultDeferredGroup : String := "default"

deriving instance DecidableEq for Except

/-- InertiaProp embeds the Go struct `Prop`: key, immediate value, lazy
resolution outcome (`valFn`), deferred group and the four behaviour flags. -/
structure InertiaProp where
  key : String
  val : Val
  valFn : Option (Except String Val)
  group : String
  mergeable : Bool
  deferred : Bool
  lazy : Bool
  ignorable : Bool
  concurrent : Bool
  deriving DecidableEq, Repr

/-- InertiaProp.value embeds `Prop.value`: resolve through the lazy function
when one is set, otherwise return the immediate value. -/
def InertiaProp.value (p : InertiaProp) : Except String Val :=
  match p.valFn with
  | some r => r
  | none => Except.ok p.val

/-- DeferredOptions embeds the options struct accepted by `NewDeferred`. -/
structure DeferredOptions where
  Group : String
  Merge : Bool
  Concurrent : Bool
  deriving DecidableEq, Repr

/-- PropOptions embeds the options struct accepted by `NewProp`. -/
structure PropOptions where
  Merge : Bool
  deriving DecidableEq, Repr

/-- cmpOrStr embeds Go `cmp.Or` on strings: the first argument unless it is
the zero value (empty string). -/
def cmpOrStr (a b : String) : String := if a ≠ "" then a else b

/-- NewDeferred embeds the constructor of the same name: deferred, lazy and
ignorable are set; group defaults to `DefaultDeferredGroup` when options are
absent or carry an empty group name. -/
def NewDeferred (key : String) (fn : Except String Val) (opts : Option DeferredOptions) :
    InertiaProp :=
  let prop : InertiaProp :=
    { key := key, val := Val.vNil, valFn := some fn, group := DefaultDeferredGroup,
      mergeable := false, deferred := true, lazy := true, ignorable := true,
      concurrent := false }
  match opts with
  | none => prop
  | some o =>
    { prop with group := cmpOrStr o.Group DefaultDeferredGroup,
                mergeable := o.Merge, concurrent := o.Concurrent }

/-- NewAlways embeds the constructor of the same name: an eager prop with
`ignorable := false`, every other flag at its zero value. -/
def NewAlways (key : String) (value : Val) : InertiaProp :=
  { key := key, val := value, valFn := none, group := "",
    mergeable := false, deferred := false, lazy := false, ignorable := false,
    concurrent := false }

/-- NewOptional embeds the constructor of the same name: lazy and ignorable. -/
def NewOptional (key : String) (fn : Except String Val) : InertiaProp :=
  { key := key, val := Val.vNil, valFn := some fn, group := "",
    mergeable := false, deferred := false, lazy := true, ignorable := true,
    concurrent := false }

/-- NewProp embeds the constructor of the same name: an eager ignorable prop,
mergeable when the options say so. -/
def NewProp (key : String) (val : Val) (opts : Option PropOptions) : InertiaProp :=
  let prop : InertiaProp :=
    { key := key, val := val, valFn := none, group := "",
      mergeable := false, deferred := false, lazy := false, ignorable := true,
      concurrent := false }
  match opts with
  | none => prop
  | some o => { prop with mergeable := o.Merge }

/-- Request embeds the header fields of `*http.Request` that the core reads,
each as the raw string returned by `Header.Get` (empty when absent), plus the
method and request target. -/
structure Request where
  method : String
  requestURI : String
  headerXInertia : String
  headerXInertiaVersion : String
  headerXInertiaPartialComponent : String
  headerXInertiaPartialData : String
  headerXInertiaPartialExcept : String
  headerXInertiaReset : String
  deriving DecidableEq, Repr

/-- isInertiaRequest embeds the predicate of the same name: the protocol
marker header must equal the sentinel string `"true"`. -/
def isInertiaRequest (req : Request) : Bool :=
  req.headerXInertia == "true"

/-- isPartialComponentRequest embeds the predicate of the same name: the
partial-component header must equal the component being rendered. -/
def isPartialComponentRequest (req : Request) (componentName : String) : Bool :=
  req.headerXInertiaPartialComponent == componentName

/-- splitCommaAux splits the remaining characters on every comma, carrying the
field accumulated so far; it reproduces `strings.Split(s, ",")`. -/
def splitCommaAux : List Char → String → List String
  | [], acc => [acc]
  | c :: cs, acc => if c = ',' then acc :: splitCommaAux cs "" else splitCommaAux cs (acc.push c)

/-- stringsSplitComma embeds `strings.Split(s, ",")`: the fields between
commas, in order, including empty fields. -/
def stringsSplitComma (s : String) : List String := splitCommaAux s.data ""

/-- trimSpace embeds `strings.TrimSpace`: drop whitespace characters from both
ends of the field. -/
def trimSpace (s : String) : String :=
  String.mk (((s.data.dropWhile Char.isWhitespace).reverse.dropWhile Char.isWhitespace).reverse)

/-- extractHeaderValueList embeds the function of the same name: `nil` for an
empty header value, otherwise split on commas and trim each field. -/
def extractHeaderValueList (h : String) : Option (List String) :=
  if h = "" then none else some ((stringsSplitComma h).map trimSpace)

/-- Page embeds the wire document struct `inertiabase.Page`; `DeferredProps`
is `Option`-valued because the Go field is a nilable map. -/
structure Page where
  Props : List (String × Val)
  DeferredProps : Option (List (String × List String))
  Component : String
  URL : String
  Version : String
  MergeProps : List String
  EncryptHistory : Bool
  ClearHistory : Bool
  deriving DecidableEq, Repr

/-- Renderer embeds the fields of the Go `Renderer` that the claims read. -/
structure Renderer where
  version : String
  concurrency : Int
  deriving DecidableEq, Repr

/-- RenderContext embeds the per-request configuration struct of the same
name; each validation errorer is its list of (field, message) pairs. -/
structure RenderContext where
  Props : List InertiaProp
  ErrorBag : String
  ValidationErrorer : List (List (String × String))
  EncryptHistory : Bool
  ClearHistory : Bool
  Concurrency : Int
  deriving DecidableEq, Repr

/-- makeValidationErrors embeds the method of the same name: fold all field
errors into one map, then wrap it in an always-prop under the `"errors"` key,
or nested one level under the bag name when the bag is not the default. -/
def makeValidationErrors (errorers : List (List (String × String))) (errorBag : String) :
    InertiaProp :=
  let m := errorers.foldl (fun m errs => errs.foldl (fun m fe => goInsert m fe.1 fe.2) m) []
  if errorBag ≠ DefaultErrorBag then
    NewAlways errorBag (Val.vNested [("errors", m)])
  else
    NewAlways "errors" (Val.vErrMap m)

/-- wrapPropErr embeds the error wrapping
`fmt.Errorf("inertia: failed to resolve prop %s: %w", key, err)`. -/
def wrapPropErr (key msg : String) : String :=
  "inertia: failed to resolve prop " ++ key ++ ": " ++ msg

/-- wrapConcurrentErr embeds the error wrapping
`fmt.Errorf("inertia: failed to resolve concurrent props: %w", err)`. -/
def wrapConcurrentErr (msg : String) : String :=
  "inertia: failed to resolve concurrent props: " ++ msg

/-- makePropsFull embeds the full-render loop of `makeProps` (the non-partial
branch): skip lazy props, resolve every other prop in order, short-circuit on
the first error, insert with Go map semantics. -/
def makePropsFull : List InertiaProp → List (String × Val) → Except String (List (String × Val))
  | [], m => Except.ok m
  | p :: ps, m =>
    if p.lazy then makePropsFull ps m
    else
      match p.value with
      | Except.error e => Except.error (wrapPropErr p.key e)
      | Except.ok v => makePropsFull ps (goInsert m p.key v)

/-- partialExcluded embeds the filter condition of
`resolvePartialComponentRequest`: an ignorable prop is skipped when a
non-empty whitelist misses its key or a non-empty blacklist contains it. -/
def partialExcluded (p : InertiaProp) (whitelist blacklist : List String) : Bool :=
  p.ignorable &&
    ((decide (whitelist.length > 0) && !whitelist.contains p.key) ||
     (decide (blacklist.length > 0) && blacklist.contains p.key))

/-- resolveConcurrent embeds the worker-pool group of
`resolvePartialComponentRequest`: every submitted prop resolves to its
(key, value) pair, each failure wrapped with its prop key; the group wait
reports the first failure in submission order. -/
def resolveConcurrent : List InertiaProp → Except String (List (String × Val))
  | [] => Except.ok []
  | p :: ps =>
    match p.value with
    | Except.error e => Except.error (wrapPropErr p.key e)
    | Except.ok v =>
      match resolveConcurrent ps with
      | Except.error e => Except.error e
      | Except.ok rest => Except.ok ((p.key, v) :: rest)

/-- resolvePartialGo embeds the body of `resolvePartialComponentRequest`:
walk the props, skipping filtered ignorable props, resolving sequential props
inline (short-circuiting on error) and queueing concurrent props; finally run
the queued props through the pool, wrap a pool failure, and insert the pool
results in submission order. -/
def resolvePartialGo (whitelist blacklist : List String) :
    List InertiaProp → List (String × Val) → List InertiaProp →
    Except String (List (String × Val))
  | [], m, cps =>
    if cps.isEmpty then Except.ok m
    else
      match resolveConcurrent cps with
      | Except.error e => Except.error (wrapConcurrentErr e)
      | Except.ok kvs => Except.ok (kvs.foldl (fun m kv => goInsert m kv.1 kv.2) m)
  | p :: ps, m, cps =>
    if partialExcluded p whitelist blacklist then resolvePartialGo whitelist blacklist ps m cps
    else if p.concurrent then resolvePartialGo whitelist blacklist ps m (cps ++ [p])
    else
      match p.value with
      | Except.error e => Except.error (wrapPropErr p.key e)
      | Except.ok v => resolvePartialGo whitelist blacklist ps (goInsert m p.key v) cps

/-- resolvePartialComponentRequest embeds the method of the same name, run on
an initially empty mapping and an initially empty concurrent queue.  The
concurrency budget only sizes the pool and does not influence the content. -/
def resolvePartialComponentRequest (props : List InertiaProp)
    (whitelist blacklist : List String) (concurrency : Int) :
    Except String (List (String × Val)) :=
  let _ := concurrency
  resolvePartialGo whitelist blacklist props [] []

/-- makeProps embeds the method of the same name: dispatch on whether the
request is a partial request for this component, extracting the whitelist and
blacklist from the partial headers (a nil list behaves as an empty one). -/
def makeProps (req : Request) (componentName : String) (props : List InertiaProp)
    (concurrency : Int) : Except String (List (String × Val)) :=
  if isPartialComponentRequest req componentName then
    resolvePartialComponentRequest props
      ((extractHeaderValueList req.headerXInertiaPartialData).getD [])
      ((extractHeaderValueList req.headerXInertiaPartialExcept).getD [])
      concurrency
  else
    makePropsFull props []

/-- makeDeferredProps embeds the method of the same name: nil on a partial
request for this component; otherwise group every deferred prop's key under
its group name, appending in prop order. -/
def makeDeferredProps (req : Request) (componentName : String)
    (props : List InertiaProp) : Option (List (String × List String)) :=
  if isPartialComponentRequest req componentName then none
  else
    some (props.foldl
      (fun m p =>
        if p.deferred then goInsert m p.group ((mlookup m p.group).getD [] ++ [p.key])
        else m)
      [])

/-- makeMergeProps embeds the method of the same name: keep, in order, the key
of every mergeable prop whose key is not in the non-empty reset blacklist. -/
def makeMergeProps (props : List InertiaProp) (blacklist : List String) : List String :=
  props.foldl
    (fun acc p =>
      if (decide (blacklist.length > 0) && blacklist.contains p.key) || !p.mergeable then acc
      else acc ++ [p.key])
    []

/-- newPage embeds the method of the same name: append one synthetic
validation-errors always-prop after the caller-supplied props, resolve the
combined list, then assemble the wire document. -/
def newPage (r : Renderer) (req : Request) (componentName : String)
    (renderCtx : RenderContext) : Except String Page :=
  let rawProps := renderCtx.Props ++
    [makeValidationErrors renderCtx.ValidationErrorer renderCtx.ErrorBag]
  match makeProps req componentName rawProps renderCtx.Concurrency with
  | Except.error e => Except.error e
  | Except.ok props =>
    Except.ok
      { Component := componentName
        Props := props
        DeferredProps := makeDeferredProps req componentName rawProps
        MergeProps := makeMergeProps rawProps
          ((extractHeaderValueList req.headerXInertiaReset).getD [])
        URL := req.requestURI
        Version := r.version
        ClearHistory := renderCtx.ClearHistory
        EncryptHistory := renderCtx.EncryptHistory }

/-- cmpOrInt embeds Go `cmp.Or` on ints: the first argument unless it is the
zero value. -/
def cmpOrInt (a b : Int) : Int := if a ≠ 0 then a else b

/-- renderResolveConcurrency embeds the first line of `Render`:
`renderCtx.Concurrency = max(cmp.Or(renderCtx.Concurrency, r.concurrency), 0)`,
the effective concurrency handed to prop resolution. -/
def renderResolveConcurrency (renderCtx : RenderContext) (r : Renderer) : Int :=
  max (cmpOrInt renderCtx.Concurrency r.concurrency) 0

/-- Conn models the real connection behind the `http.ResponseWriter`: the
header map, the status line and the body chunks actually sent. -/
structure Conn where
  headers : List (String × String)
  status : Nat
  body : List String
  deriving DecidableEq, Repr

/-- hDel embeds `http.Header.Del`: remove the binding for a key. -/
def hDel (hs : List (String × String)) (k : String) : List (String × String) :=
  hs.filter (fun p => !(p.1 == k))

/-- seeOtherMethods embeds the variable of the same name in the middleware. -/
def seeOtherMethods : List String := ["PATCH", "PUT", "DELETE"]

/-- Redirect embeds `inertiaredirect.Redirect`: a 302 for GET requests and a
303 otherwise, with the target in the standard `Location` header. -/
def Redirect (req : Request) (c : Conn) (url : String) : Conn :=
  let statusCode : Nat := if req.method = "GET" then 302 else 303
  { c with headers := goInsert c.headers "Location" url, status := statusCode }

/-- Location embeds the function of the same name: for a protocol request,
clear the negotiation headers, carry the URL in `X-Inertia-Location` and
answer 409 Conflict; otherwise perform an ordinary redirect. -/
def Location (req : Request) (c : Conn) (url : String) : Conn :=
  if isInertiaRequest req then
    { c with
        headers := goInsert (hDel (hDel c.headers "Vary") "X-Inertia") "X-Inertia-Location" url
        status := 409 }
  else
    Redirect req c url

/-- DefaultVersionMismatchHandler embeds the handler of the same name:
redirect the client back to the URL it asked for. -/
def DefaultVersionMismatchHandler (req : Request) (c : Conn) : Conn :=
  Location req c req.requestURI

/-- DefaultEmptyResponseHandler embeds the handler of the same name:
`http.Error(w, "Empty response", http.StatusNoContent)`. -/
def DefaultEmptyResponseHandler (req : Request) (c : Conn) : Conn :=
  let _ := req
  { c with status := 204, body := ["Empty response"] }

/-- WriterOp is one call the downstream handler makes on its response writer:
an explicit status write or a body write. -/
inductive WriterOp where
  | writeHeader : Nat → WriterOp
  | write : String → WriterOp
  deriving DecidableEq, Repr

/-- BufferedWriter is modelled from the spec: the buffering response-writer
wrapper (`newResponseWriter` / `statusCode` / `Empty` / `flush`) is not among
the sources, only its caller in the middleware is; per §4.5 it records the
status and the body chunks without committing any byte, the recorded status
being the last one set (the middleware itself rewrites it after the handler
returns) and defaulting to the implied 200. -/
structure BufferedWriter where
  statusCode : Nat
  body : List String
  deriving DecidableEq, Repr

/-- applyWriterOp is modelled from the spec (§4.5 Recording state): a status
write replaces the buffered status, a body write appends a chunk; nothing
reaches the connection. -/
def applyWriterOp (w : BufferedWriter) (op : WriterOp) : BufferedWriter :=
  match op with
  | WriterOp.writeHeader n => { w with statusCode := n }
  | WriterOp.write s => { w with body := w.body ++ [s] }

/-- runBuffered is modelled from the spec: the downstream handler's writes all
land in a fresh buffer. -/
def runBuffered (ops : List WriterOp) : BufferedWriter :=
  ops.foldl applyWriterOp { statusCode := 200, body := [] }

/-- connRunOps applies a handler's writes directly to the real connection
(the non-protocol pass-through branch of the middleware). -/
def connRunOps (c : Conn) (ops : List WriterOp) : Conn :=
  ops.foldl
    (fun c op =>
      match op with
      | WriterOp.writeHeader n => { c with status := n }
      | WriterOp.write s => { c with body := c.body ++ [s] })
    c

/-- serveMiddleware embeds the handler returned by `NewMiddleware`: set the
`Vary` header, pass non-protocol requests through untouched, answer a version
mismatch with the mismatch handler before the downstream handler ever runs,
and otherwise run the downstream handler against the buffered writer, rewrite
a buffered 302 to 303 for the unsafe-redirect methods, divert empty bodies to
the empty-response handler, and finally flush the buffer to the connection
(the flush itself is modelled from the spec, §4.5 terminal state). -/
def serveMiddleware (renderer : Renderer)
    (versionMismatchHandler emptyResponseHandler : Request → Conn → Conn)
    (next : Request → List WriterOp) (req : Request) : Conn :=
  let c : Conn := { headers := goInsert [] "Vary" "X-Inertia", status := 200, body := [] }
  if !(isInertiaRequest req) then connRunOps c (next req)
  else if req.headerXInertiaVersion ≠ renderer.version then versionMismatchHandler req c
  else
    let rww := runBuffered (next req)
    let rww :=
      if rww.statusCode == 302 && seeOtherMethods.contains req.method then
        { rww with statusCode := 303 }
      else rww
    if rww.body.isEmpty then emptyResponseHandler req c
    else { c with status := rww.statusCode, body := rww.body }

/-- deferredKeysAt lists, in prop order, the keys of the deferred props whose
group is `g`; it is the specification-side description of one entry of the
deferred-prop index. -/
def deferredKeysAt (props : List InertiaProp) (g : String) : List String :=
  (props.filter (fun p => p.deferred && p.group == g)).map InertiaProp.key

def c1renderer : Renderer := { version := "v1", concurrency := 4 }

def c1req : Request :=
  { method := "GET", requestURI := "/dashboard", headerXInertia := "true",
    headerXInertiaVersion := "v1", headerXInertiaPartialComponent := "",
    headerXInertiaPartialData := "", headerXInertiaPartialExcept := "",
    headerXInertiaReset := "" }

def c1ctx : RenderContext :=
  { Props := [NewProp "errors" (Val.vStr "caller") none], ErrorBag := "",
    ValidationErrorer := [], EncryptHistory := false, ClearHistory := false,
    Concurrency := 0 }

def c1page : Page :=
  match newPage c1renderer c1req "Home" c1ctx with
  | Except.ok p => p
  | Except.error _ =>
    { Props := [], DeferredProps := none, Component := "", URL := "", Version := "",
      MergeProps := [], EncryptHistory := false, ClearHistory := false }

def c2ctxZero : RenderContext :=
  { Props := [], ErrorBag := "", ValidationErrorer := [], EncryptHistory := false,
    ClearHistory := false, Concurrency := 0 }

def c2ctxNeg : RenderContext :=
  { Props := [], ErrorBag := "", ValidationErrorer := [], EncryptHistory := false,
    ClearHistory := false, Concurrency := -3 }

def c3props : List InertiaProp :=
  [NewProp "a" (Val.vInt 1) none, NewProp "b" (Val.vInt 2) none,
   NewProp "c" (Val.vInt 3) none, NewAlways "auth" (Val.vStr "user")]

def c3result : List (String × Val) :=
  match resolvePartialComponentRequest c3props ["a", "b"] [] 1 with
  | Except.ok m => m
  | Except.error _ => []

def c4bad : InertiaProp :=
  { key := "boom", val := Val.vNil, valFn := some (Except.error "kaput"), group := "",
    mergeable := false, deferred := false, lazy := false, ignorable := true,
    concurrent := false }

def c5props : List InertiaProp :=
  [NewOptional "x" (Except.ok (Val.vStr "lazyval")), NewProp "x" (Val.vInt 1) none]

def c5wprops : List InertiaProp :=
  [NewProp "a" (Val.vInt 1) none, NewOptional "opt" (Except.ok Val.vNil)]

def c6props : List InertiaProp :=
  [NewDeferred "d1" (Except.ok Val.vNil)
     (some { Group := "g1", Merge := false, Concurrent := false }),
   NewProp "a" (Val.vInt 1) none]

def c6fullReq : Request :=
  { method := "GET", requestURI := "/p", headerXInertia := "true",
    headerXInertiaVersion := "", headerXInertiaPartialComponent := "",
    headerXInertiaPartialData := "", headerXInertiaPartialExcept := "",
    headerXInertiaReset := "" }

def c6partialReq : Request := { c6fullReq with headerXInertiaPartialComponent := "Home" }

def c0conn : Conn := { headers := goInsert [] "Vary" "X-Inertia", status := 200, body := [] }

def c7r : Renderer := { version := "1.0.1", concurrency := 1 }

def c7req : Request :=
  { method := "GET", requestURI := "/page", headerXInertia := "true",
    headerXInertiaVersion := "1.0.0", headerXInertiaPartialComponent := "",
    headerXInertiaPartialData := "", headerXInertiaPartialExcept := "",
    headerXInertiaReset := "" }

def c7next : Request → List WriterOp :=
  fun _ => [WriterOp.writeHeader 200, WriterOp.write "content"]

def c8r : Renderer := { version := "v", concurrency := 1 }

def c8reqPatch : Request :=
  { method := "PATCH", requestURI := "/r", headerXInertia := "true",
    headerXInertiaVersion := "v", headerXInertiaPartialComponent := "",
    headerXInertiaPartialData := "", headerXInertiaPartialExcept := "",
    headerXInertiaReset := "" }

def c8reqGet : Request := { c8reqPatch with method := "GET" }

def c8next : Request → List WriterOp :=
  fun _ => [WriterOp.writeHeader 302, WriterOp.write "redirect body"]

/-- pageSansMergeProps projects every field of the wire document except the
merge-key list. -/
def pageSansMergeProps (p : Page) :
    List (String × Val) × Option (List (String × List String)) × String × String ×
      String × Bool × Bool :=
  (p.Props, p.DeferredProps, p.Component, p.URL, p.Version, p.EncryptHistory,
   p.ClearHistory)

theorem mlookup_goInsert_self {α : Type} (m : List (String × α)) (k : String) (v : α) :
    mlookup (goInsert m k v) k = some v := by
  induction m with
  | nil => simp [goInsert, mlookup]
  | cons kv rest ih =>
    obtain ⟨k', v'⟩ := kv
    by_cases h : k' = k <;> simp [goInsert, mlookup, h, ih]

@[simp] theorem mkeys_nil {α : Type} : mkeys ([] : List (String × α)) = [] := rfl

@[simp] theorem mkeys_cons {α : Type} (k : String) (v : α) (m : List (String × α)) :
    mkeys ((k, v) :: m) = k :: mkeys m := rfl

theorem mlookup_goInsert_ne {α : Type} (m : List (String × α)) {k k' : String} (v : α)
    (h : k' ≠ k) : mlookup (goInsert m k v) k' = mlookup m k' := by
  induction m with
  | nil => simp [goInsert, mlookup, Ne.symm h]
  | cons kv rest ih =>
    obtain ⟨k'', v''⟩ := kv
    by_cases h2 : k'' = k
    · subst h2
      simp [goInsert, mlookup, Ne.symm h]
    · simp only [goInsert, if_neg h2, mlookup]
      by_cases h3 : k'' = k' <;> simp [h3, ih]

theorem goInsert_cons_eq {α : Type} (k : String) (v' v : α) (rest : List (String × α)) :
    goInsert ((k, v') :: rest) k v = (k, v) :: rest := by
  simp [goInsert]

theorem goInsert_cons_ne {α : Type} {k'' k : String} (h : k'' ≠ k) (v'' v : α)
    (rest : List (String × α)) :
    goInsert ((k'', v'') :: rest) k v = (k'', v'') :: goInsert rest k v := by
  simp [goInsert, h]

theorem mem_mkeys_goInsert {α : Type} (m : List (String × α)) (k k' : String) (v : α) :
    k' ∈ mkeys (goInsert m k v) ↔ k' = k ∨ k' ∈ mkeys m := by
  induction m with
  | nil => simp [goInsert]
  | cons kv rest ih =>
    obtain ⟨k'', v''⟩ := kv
    by_cases h : k'' = k
    · subst h
      rw [goInsert_cons_eq]
      simp only [mkeys_cons, List.mem_cons]
      tauto
    · rw [goInsert_cons_ne h]
      simp only [mkeys_cons, List.mem_cons, ih]
      tauto

theorem makePropsFull_append (xs ys : List InertiaProp) (m : List (String × Val)) :
    makePropsFull (xs ++ ys) m =
      match makePropsFull xs m with
      | Except.error e => Except.error e
      | Except.ok m1 => makePropsFull ys m1 := by
  induction xs generalizing m with
  | nil => simp [makePropsFull]
  | cons p ps ih =>
    cases hl : p.lazy with
    | true => simp [makePropsFull, hl, ih]
    | false =>
      cases hv : p.value with
      | error e => simp [makePropsFull, hl, hv]
      | ok v => simp [makePropsFull, hl, hv, ih]

theorem mem_mkeys_makePropsFull (props : List InertiaProp) (m m' : List (String × Val))
    (h : makePropsFull props m = Except.ok m') (k : String) :
    k ∈ mkeys m' ↔ k ∈ mkeys m ∨ ∃ p ∈ props, p.lazy = false ∧ p.key = k := by
  induction props generalizing m with
  | nil =>
    simp only [makePropsFull, Except.ok.injEq] at h
    subst h
    simp
  | cons p ps ih =>
    cases hl : p.lazy with
    | true =>
      have h' : makePropsFull ps m = Except.ok m' := by
        rw [makePropsFull] at h
        simpa [hl] using h
      rw [ih _ h']
      constructor
      · rintro (hm | ⟨q, hq, hql, hqk⟩)
        · exact Or.inl hm
        · exact Or.inr ⟨q, List.mem_cons_of_mem _ hq, hql, hqk⟩
      · rintro (hm | ⟨q, hq, hql, hqk⟩)
        · exact Or.inl hm
        · rcases List.mem_cons.mp hq with rfl | hq'
          · rw [hl] at hql; cases hql
          · exact Or.inr ⟨q, hq', hql, hqk⟩
    | false =>
      cases hv : p.value with
      | error e =>
        rw [makePropsFull] at h
        simp [hl, hv] at h
      | ok v =>
        have h' : makePropsFull ps (goInsert m p.key v) = Except.ok m' := by
          rw [makePropsFull] at h
          simpa [hl, hv] using h
        rw [ih _ h', mem_mkeys_goInsert]
        constructor
        · rintro ((rfl | hm) | ⟨q, hq, hql, hqk⟩)
          · exact Or.inr ⟨p, List.mem_cons_self _ _, hl, rfl⟩
          · exact Or.inl hm
          · exact Or.inr ⟨q, List.mem_cons_of_mem _ hq, hql, hqk⟩
        · rintro (hm | ⟨q, hq, hql, hqk⟩)
          · exact Or.inl (Or.inr hm)
          · rcases List.mem_cons.mp hq with rfl | hq'
            · exact Or.inl (Or.inl hqk.symm)
            · exact Or.inr ⟨q, hq', hql, hqk⟩

theorem makePropsFull_ok_resolves (props : List InertiaProp) (m m' : List (String × Val))
    (h : makePropsFull props m = Except.ok m') :
    ∀ p ∈ props, p.lazy = false → ∃ v, p.value = Except.ok v := by
  induction props generalizing m with
  | nil => simp
  | cons p ps ih =>
    intro q hq hql
    cases hl : p.lazy with
    | true =>
      have h' : makePropsFull ps m = Except.ok m' := by
        rw [makePropsFull] at h
        simpa [hl] using h
      rcases List.mem_cons.mp hq with rfl | hq'
      · rw [hl] at hql; cases hql
      · exact ih _ h' q hq' hql
    | false =>
      cases hv : p.value with
      | error e =>
        rw [makePropsFull] at h
        simp [hl, hv] at h
      | ok v =>
        have h' : makePropsFull ps (goInsert m p.key v) = Except.ok m' := by
          rw [makePropsFull] at h
          simpa [hl, hv] using h
        rcases List.mem_cons.mp hq with rfl | hq'
        · exact ⟨v, hv⟩
        · exact ih _ h' q hq' hql

theorem makePropsFull_error_shape (props : List InertiaProp) (m : List (String × Val))
    (e : String) (h : makePropsFull props m = Except.error e) :
    ∃ p ∈ props, p.lazy = false ∧
      ∃ msg, p.value = Except.error msg ∧ e = wrapPropErr p.key msg := by
  induction props generalizing m with
  | nil => simp [makePropsFull] at h
  | cons p ps ih =>
    cases hl : p.lazy with
    | true =>
      have h' : makePropsFull ps m = Except.error e := by
        rw [makePropsFull] at h
        simpa [hl] using h
      obtain ⟨q, hq, hql, msg, hmsg, he⟩ := ih _ h'
      exact ⟨q, List.mem_cons_of_mem _ hq, hql, msg, hmsg, he⟩
    | false =>
      cases hv : p.value with
      | error msg =>
        have he : e = wrapPropErr p.key msg := by
          rw [makePropsFull] at h
          simp [hl, hv] at h
          exact h.symm
        exact ⟨p, List.mem_cons_self _ _, hl, msg, hv, he⟩
      | ok v =>
        have h' : makePropsFull ps (goInsert m p.key v) = Except.error e := by
          rw [makePropsFull] at h
          simpa [hl, hv] using h
        obtain ⟨q, hq, hql, msg, hmsg, he⟩ := ih _ h'
        exact ⟨q, List.mem_cons_of_mem _ hq, hql, msg, hmsg, he⟩

theorem makePropsFull_snoc_lookup (props : List InertiaProp) (p : InertiaProp)
    (m m' : List (String × Val)) (hl : p.lazy = false) (v : Val)
    (hv : p.value = Except.ok v) (h : makePropsFull (props ++ [p]) m = Except.ok m') :
    mlookup m' p.key = some v := by
  rw [makePropsFull_append] at h
  cases h1 : makePropsFull props m with
  | error e => rw [h1] at h; cases h
  | ok m1 =>
    rw [h1] at h
    simp only [makePropsFull, hl, hv, Bool.false_eq_true, if_false, Except.ok.injEq] at h
    subst h
    exact mlookup_goInsert_self _ _ _

theorem resolveConcurrent_ok_keys (cps : List InertiaProp) (kvs : List (String × Val))
    (h : resolveConcurrent cps = Except.ok kvs) (k : String) :
    (∃ kv ∈ kvs, kv.1 = k) ↔ ∃ p ∈ cps, p.key = k := by
  induction cps generalizing kvs with
  | nil =>
    simp only [resolveConcurrent, Except.ok.injEq] at h
    subst h
    simp
  | cons p ps ih =>
    cases hv : p.value with
    | error e => rw [resolveConcurrent] at h; simp [hv] at h
    | ok v =>
      cases hr : resolveConcurrent ps with
      | error e => rw [resolveConcurrent] at h; simp [hv, hr] at h
      | ok rest =>
        have hk : kvs = (p.key, v) :: rest := by
          rw [resolveConcurrent] at h
          simp only [hv, hr, Except.ok.injEq] at h
          exact h.symm
        subst hk
        constructor
        · rintro ⟨kv, hkv, hk1⟩
          rcases List.mem_cons.mp hkv with rfl | hkv'
          · exact ⟨p, List.mem_cons_self _ _, hk1⟩
          · obtain ⟨q, hq, hqk⟩ := (ih rest hr).mp ⟨kv, hkv', hk1⟩
            exact ⟨q, List.mem_cons_of_mem _ hq, hqk⟩
        · rintro ⟨q, hq, hqk⟩
          rcases List.mem_cons.mp hq with rfl | hq'
          · exact ⟨(q.key, v), List.mem_cons_self _ _, hqk⟩
          · obtain ⟨kv, hkv, hk1⟩ := (ih rest hr).mpr ⟨q, hq', hqk⟩
            exact ⟨kv, List.mem_cons_of_mem _ hkv, hk1⟩

theorem resolveConcurrent_ok_resolves (cps : List InertiaProp) (kvs : List (String × Val))
    (h : resolveConcurrent cps = Except.ok kvs) :
    ∀ p ∈ cps, ∃ v, p.value = Except.ok v := by
  induction cps generalizing kvs with
  | nil => simp
  | cons p ps ih =>
    intro q hq
    cases hv : p.value with
    | error e => rw [resolveConcurrent] at h; simp [hv] at h
    | ok v =>
      cases hr : resolveConcurrent ps with
      | error e => rw [resolveConcurrent] at h; simp [hv, hr] at h
      | ok rest =>
        rcases List.mem_cons.mp hq with rfl | hq'
        · exact ⟨v, hv⟩
        · exact ih rest hr q hq'

theorem resolveConcurrent_error_shape (cps : List InertiaProp) (e : String)
    (h : resolveConcurrent cps = Except.error e) :
    ∃ p ∈ cps, ∃ msg, p.value = Except.error msg ∧ e = wrapPropErr p.key msg := by
  induction cps with
  | nil => simp [resolveConcurrent] at h
  | cons p ps ih =>
    cases hv : p.value with
    | error msg =>
      have he : e = wrapPropErr p.key msg := by
        rw [resolveConcurrent] at h
        simp only [hv, Except.error.injEq] at h
        exact h.symm
      exact ⟨p, List.mem_cons_self _ _, msg, hv, he⟩
    | ok v =>
      cases hr : resolveConcurrent ps with
      | error e' =>
        have he : e' = e := by
          rw [resolveConcurrent] at h
          simp only [hv, hr, Except.error.injEq] at h
          exact h
        obtain ⟨q, hq, msg, hmsg, he'⟩ := ih (by rw [hr, he])
        exact ⟨q, List.mem_cons_of_mem _ hq, msg, hmsg, he'⟩
      | ok rest => rw [resolveConcurrent] at h; simp [hv, hr] at h

theorem mem_mkeys_foldl_goInsert (kvs : List (String × Val)) (m : List (String × Val))
    (k : String) :
    k ∈ mkeys (kvs.foldl (fun m kv => goInsert m kv.1 kv.2) m) ↔
      k ∈ mkeys m ∨ ∃ kv ∈ kvs, kv.1 = k := by
  induction kvs generalizing m with
  | nil => simp
  | cons kv rest ih =>
    rw [List.foldl_cons, ih, mem_mkeys_goInsert]
    simp only [List.mem_cons]
    constructor
    · rintro ((rfl | hm) | ⟨kv', hkv', hk1⟩)
      · exact Or.inr ⟨kv, Or.inl rfl, rfl⟩
      · exact Or.inl hm
      · exact Or.inr ⟨kv', Or.inr hkv', hk1⟩
    · rintro (hm | ⟨kv', (rfl | hkv'), hk1⟩)
      · exact Or.inl (Or.inr hm)
      · exact Or.inl (Or.inl hk1.symm)
      · exact Or.inr ⟨kv', hkv', hk1⟩

theorem mem_mkeys_resolvePartialGo (wl bl : List String) (props : List InertiaProp)
    (m : List (String × Val)) (cps : List InertiaProp) (m' : List (String × Val))
    (h : resolvePartialGo wl bl props m cps = Except.ok m') (k : String) :
    k ∈ mkeys m' ↔ k ∈ mkeys m ∨ (∃ p ∈ cps, p.key = k) ∨
      ∃ p ∈ props, partialExcluded p wl bl = false ∧ p.key = k := by
  induction props generalizing m cps with
  | nil =>
    rw [resolvePartialGo] at h
    cases cps with
    | nil =>
      simp only [List.isEmpty_nil, if_true] at h
      injection h with h
      subst h
      simp
    | cons q qs =>
      simp only [List.isEmpty_cons, Bool.false_eq_true, if_false] at h
      cases hr : resolveConcurrent (q :: qs) with
      | error e => rw [hr] at h; cases h
      | ok kvs =>
        rw [hr] at h
        injection h with h
        subst h
        rw [mem_mkeys_foldl_goInsert]
        have hk := resolveConcurrent_ok_keys (q :: qs) kvs hr k
        constructor
        · rintro (hm | hkv)
          · exact Or.inl hm
          · exact Or.inr (Or.inl (hk.mp hkv))
        · rintro (hm | hp | ⟨p, hp, -⟩)
          · exact Or.inl hm
          · exact Or.inr (hk.mpr hp)
          · exact absurd hp (List.not_mem_nil p)
  | cons p ps ih =>
    rw [resolvePartialGo] at h
    cases hx : partialExcluded p wl bl with
    | true =>
      rw [if_pos hx] at h
      rw [ih _ _ h]
      constructor
      · rintro (hm | hcp | ⟨q, hq, hql, hqk⟩)
        · exact Or.inl hm
        · exact Or.inr (Or.inl hcp)
        · exact Or.inr (Or.inr ⟨q, List.mem_cons_of_mem _ hq, hql, hqk⟩)
      · rintro (hm | hcp | ⟨q, hq, hql, hqk⟩)
        · exact Or.inl hm
        · exact Or.inr (Or.inl hcp)
        · rcases List.mem_cons.mp hq with rfl | hq'
          · simp [hql] at hx
          · exact Or.inr (Or.inr ⟨q, hq', hql, hqk⟩)
    | false =>
      rw [if_neg (by simp [hx])] at h
      cases hcc : p.concurrent with
      | true =>
        rw [if_pos hcc] at h
        rw [ih _ _ h]
        constructor
        · rintro (hm | ⟨q, hq, hqk⟩ | ⟨q, hq, hql, hqk⟩)
          · exact Or.inl hm
          · rcases List.mem_append.mp hq with hq' | hq'
            · exact Or.inr (Or.inl ⟨q, hq', hqk⟩)
            · rcases List.mem_singleton.mp hq' with rfl
              exact Or.inr (Or.inr ⟨q, List.mem_cons_self _ _, hx, hqk⟩)
          · exact Or.inr (Or.inr ⟨q, List.mem_cons_of_mem _ hq, hql, hqk⟩)
        · rintro (hm | ⟨q, hq, hqk⟩ | ⟨q, hq, hql, hqk⟩)
          · exact Or.inl hm
          · exact Or.inr (Or.inl ⟨q, List.mem_append_left _ hq, hqk⟩)
          · rcases List.mem_cons.mp hq with rfl | hq'
            · exact Or.inr (Or.inl ⟨q, List.mem_append_right _ (List.mem_singleton.mpr rfl), hqk⟩)
            · exact Or.inr (Or.inr ⟨q, hq', hql, hqk⟩)
      | false =>
        rw [if_neg (by simp [hcc])] at h
        cases hv : p.value with
        | error e => rw [hv] at h; cases h
        | ok v =>
          rw [hv] at h
          rw [ih _ _ h, mem_mkeys_goInsert]
          constructor
          · rintro ((rfl | hm) | hcp | ⟨q, hq, hql, hqk⟩)
            · exact Or.inr (Or.inr ⟨p, List.mem_cons_self _ _, hx, rfl⟩)
            · exact Or.inl hm
            · exact Or.inr (Or.inl hcp)
            · exact Or.inr (Or.inr ⟨q, List.mem_cons_of_mem _ hq, hql, hqk⟩)
          · rintro (hm | hcp | ⟨q, hq, hql, hqk⟩)
            · exact Or.inl (Or.inr hm)
            · exact Or.inr (Or.inl hcp)
            · rcases List.mem_cons.mp hq with rfl | hq'
              · exact Or.inl (Or.inl hqk.symm)
              · exact Or.inr (Or.inr ⟨q, hq', hql, hqk⟩)

theorem resolvePartialGo_ok_resolves (wl bl : List String) (props : List InertiaProp)
    (m : List (String × Val)) (cps : List InertiaProp) (m' : List (String × Val))
    (h : resolvePartialGo wl bl props m cps = Except.ok m') :
    (∀ p ∈ props, partialExcluded p wl bl = false → ∃ v, p.value = Except.ok v) ∧
      ∀ p ∈ cps, ∃ v, p.value = Except.ok v := by
  induction props generalizing m cps with
  | nil =>
    rw [resolvePartialGo] at h
    refine ⟨by simp, ?_⟩
    cases cps with
    | nil => simp
    | cons q qs =>
      simp only [List.isEmpty_cons, Bool.false_eq_true, if_false] at h
      cases hr : resolveConcurrent (q :: qs) with
      | error e => rw [hr] at h; cases h
      | ok kvs => exact resolveConcurrent_ok_resolves (q :: qs) kvs hr
  | cons p ps ih =>
    rw [resolvePartialGo] at h
    cases hx : partialExcluded p wl bl with
    | true =>
      rw [if_pos hx] at h
      obtain ⟨h1, h2⟩ := ih _ _ h
      refine ⟨?_, h2⟩
      intro q hq hql
      rcases List.mem_cons.mp hq with rfl | hq'
      · simp [hql] at hx
      · exact h1 q hq' hql
    | false =>
      rw [if_neg (by simp [hx])] at h
      cases hcc : p.concurrent with
      | true =>
        rw [if_pos hcc] at h
        obtain ⟨h1, h2⟩ := ih _ _ h
        refine ⟨?_, fun q hq => h2 q (List.mem_append_left _ hq)⟩
        intro q hq hql
        rcases List.mem_cons.mp hq with rfl | hq'
        · exact h2 q (List.mem_append_right _ (List.mem_singleton.mpr rfl))
        · exact h1 q hq' hql
      | false =>
        rw [if_neg (by simp [hcc])] at h
        cases hv : p.value with
        | error e => rw [hv] at h; cases h
        | ok v =>
          rw [hv] at h
          obtain ⟨h1, h2⟩ := ih _ _ h
          refine ⟨?_, h2⟩
          intro q hq hql
          rcases List.mem_cons.mp hq with rfl | hq'
          · exact ⟨v, hv⟩
          · exact h1 q hq' hql

theorem resolvePartialGo_error_shape (wl bl : List String) (props : List InertiaProp)
    (m : List (String × Val)) (cps : List InertiaProp) (e : String)
    (h : resolvePartialGo wl bl props m cps = Except.error e) :
    ∃ p, ((p ∈ props ∧ partialExcluded p wl bl = false) ∨ p ∈ cps) ∧
      ∃ msg, p.value = Except.error msg ∧
        (e = wrapPropErr p.key msg ∨ e = wrapConcurrentErr (wrapPropErr p.key msg)) := by
  induction props generalizing m cps with
  | nil =>
    rw [resolvePartialGo] at h
    cases cps with
    | nil => simp only [List.isEmpty_nil, if_true] at h; cases h
    | cons q qs =>
      simp only [List.isEmpty_cons, Bool.false_eq_true, if_false] at h
      cases hr : resolveConcurrent (q :: qs) with
      | error e' =>
        rw [hr] at h
        injection h with h
        obtain ⟨p, hp, msg, hmsg, he⟩ := resolveConcurrent_error_shape (q :: qs) e' hr
        exact ⟨p, Or.inr hp, msg, hmsg, Or.inr (by rw [← h, he])⟩
      | ok kvs => rw [hr] at h; cases h
  | cons p ps ih =>
    rw [resolvePartialGo] at h
    cases hx : partialExcluded p wl bl with
    | true =>
      rw [if_pos hx] at h
      obtain ⟨q, hq, msg, hmsg, he⟩ := ih _ _ h
      rcases hq with ⟨hq1, hq2⟩ | hq1
      · exact ⟨q, Or.inl ⟨List.mem_cons_of_mem _ hq1, hq2⟩, msg, hmsg, he⟩
      · exact ⟨q, Or.inr hq1, msg, hmsg, he⟩
    | false =>
      rw [if_neg (by simp [hx])] at h
      cases hcc : p.concurrent with
      | true =>
        rw [if_pos hcc] at h
        obtain ⟨q, hq, msg, hmsg, he⟩ := ih _ _ h
        rcases hq with ⟨hq1, hq2⟩ | hq1
        · exact ⟨q, Or.inl ⟨List.mem_cons_of_mem _ hq1, hq2⟩, msg, hmsg, he⟩
        · rcases List.mem_append.mp hq1 with hq' | hq'
          · exact ⟨q, Or.inr hq', msg, hmsg, he⟩
          · rcases List.mem_singleton.mp hq' with rfl
            exact ⟨q, Or.inl ⟨List.mem_cons_self _ _, hx⟩, msg, hmsg, he⟩
      | false =>
        rw [if_neg (by simp [hcc])] at h
        cases hv : p.value with
        | error msg =>
          rw [hv] at h
          injection h with h
          exact ⟨p, Or.inl ⟨List.mem_cons_self _ _, hx⟩, msg, hv, Or.inl h.symm⟩
        | ok v =>
          rw [hv] at h
          obtain ⟨q, hq, msg, hmsg, he⟩ := ih _ _ h
          rcases hq with ⟨hq1, hq2⟩ | hq1
          · exact ⟨q, Or.inl ⟨List.mem_cons_of_mem _ hq1, hq2⟩, msg, hmsg, he⟩
          · exact ⟨q, Or.inr hq1, msg, hmsg, he⟩

theorem mlookup_deferredFold (props : List InertiaProp)
    (m : List (String × List String)) (g : String) :
    mlookup
      (props.foldl
        (fun m p =>
          if p.deferred then goInsert m p.group ((mlookup m p.group).getD [] ++ [p.key])
          else m)
        m) g =
      match mlookup m g with
      | some l => some (l ++ deferredKeysAt props g)
      | none =>
        if deferredKeysAt props g = [] then none else some (deferredKeysAt props g) := by
  induction props generalizing m with
  | nil => cases hm : mlookup m g <;> simp [deferredKeysAt, hm]
  | cons p ps ih =>
    rw [List.foldl_cons]
    cases hd : p.deferred with
    | false =>
      rw [if_neg (by simp [hd])]
      rw [ih]
      have hf : deferredKeysAt (p :: ps) g = deferredKeysAt ps g := by
        simp [deferredKeysAt, List.filter_cons, hd]
      rw [hf]
    | true =>
      rw [if_pos rfl]
      by_cases hg : p.group = g
      · rw [hg, ih]
        have hf : deferredKeysAt (p :: ps) g = p.key :: deferredKeysAt ps g := by
          simp [deferredKeysAt, List.filter_cons, hd, hg]
        rw [hf]
        rw [mlookup_goInsert_self]
        cases hm : mlookup m g with
        | some l => simp [hm]
        | none => simp [hm]
      · rw [ih]
        have hne : g ≠ p.group := fun h => hg h.symm
        rw [mlookup_goInsert_ne _ _ hne]
        have hf : deferredKeysAt (p :: ps) g = deferredKeysAt ps g := by
          simp [deferredKeysAt, List.filter_cons, hd, hg]
        rw [hf]

theorem splitCommaAux_ne_nil (l : List Char) (acc : String) :
    splitCommaAux l acc ≠ [] := by
  induction l generalizing acc with
  | nil => simp [splitCommaAux]
  | cons c cs ih =>
    by_cases h : c = ',' <;> simp [splitCommaAux, h, ih]

theorem splitCommaAux_append_comma (l : List Char) (acc : String) :
    splitCommaAux (l ++ [',']) acc = splitCommaAux l acc ++ [""] := by
  induction l generalizing acc with
  | nil => simp [splitCommaAux]
  | cons c cs ih =>
    by_cases h : c = ',' <;> simp [splitCommaAux, h, ih]

theorem string_data_append (s t : String) : (s ++ t).data = s.data ++ t.data := rfl

theorem string_append_comma_ne_empty (h : String) : h ++ "," ≠ "" := by
  intro hc
  have : (h ++ ",").data = ("" : String).data := by rw [hc]
  rw [string_data_append] at this
  simp at this

theorem partialExcluded_eq_true_iff (p : InertiaProp) (wl bl : List String)
    (hi : p.ignorable = true) :
    partialExcluded p wl bl = true ↔
      ((wl ≠ [] ∧ p.key ∉ wl) ∨ (bl ≠ [] ∧ p.key ∈ bl)) := by
  simp [partialExcluded, hi, List.length_pos]

theorem partialExcluded_always_false (p : InertiaProp) (wl bl : List String)
    (hi : p.ignorable = false) : partialExcluded p wl bl = false := by
  simp [partialExcluded, hi]

theorem makeValidationErrors_eager (errorers : List (List (String × String))) (bag : String) :
    (makeValidationErrors errorers bag).lazy = false ∧
      (makeValidationErrors errorers bag).valFn = none := by
  by_cases hb : bag ≠ DefaultErrorBag <;> simp [makeValidationErrors, hb, NewAlways]

theorem value_of_valFn_none (p : InertiaProp) (h : p.valFn = none) :
    p.value = Except.ok p.val := by
  rw [InertiaProp.value, h]

theorem newPage_ok_props (r : Renderer) (req : Request) (name : String)
    (ctx : RenderContext) (page : Page) (hok : newPage r req name ctx = Except.ok page) :
    makeProps req name
        (ctx.Props ++ [makeValidationErrors ctx.ValidationErrorer ctx.ErrorBag])
        ctx.Concurrency
      = Except.ok page.Props := by
  rw [newPage] at hok
  cases hm : makeProps req name
      (ctx.Props ++ [makeValidationErrors ctx.ValidationErrorer ctx.ErrorBag])
      ctx.Concurrency with
  | error e => rw [hm] at hok; cases hok
  | ok props => rw [hm] at hok; injection hok with hok; rw [← hok]

/-- C1 (amended): `newPage` appends the synthetic validation-errors
always-prop after the caller-supplied props, so under last-applied-wins map
insertion the synthetic prop's value — not a caller-supplied prop sharing its
key — is the one found in the resolved mapping of a successful full render. -/
theorem C1_validation_errors_appended_overrides (r : Renderer) (req : Request)
    (name : String) (ctx : RenderContext) (page : Page)
    (hfull : isPartialComponentRequest req name = false)
    (hok : newPage r req name ctx = Except.ok page) :
    mlookup page.Props (makeValidationErrors ctx.ValidationErrorer ctx.ErrorBag).key
      = some (makeValidationErrors ctx.ValidationErrorer ctx.ErrorBag).val := by
  have hm := newPage_ok_props r req name ctx page hok
  rw [makeProps] at hm
  rw [hfull] at hm
  simp only [Bool.false_eq_true, if_false] at hm
  have heager := makeValidationErrors_eager ctx.ValidationErrorer ctx.ErrorBag
  exact makePropsFull_snoc_lookup ctx.Props _ [] page.Props heager.1 _
    (value_of_valFn_none _ heager.2) hm

/-- C1 (counterexample): with a caller-supplied prop under the key `"errors"`
and the synthetic validation-errors always-prop sharing that key, the
resolved mapping holds the synthetic empty error map, not the caller's value
— so the synthetic prop is not placed before the caller props and the caller
prop does not take precedence, contrary to the claim. -/
theorem C1_counterexample :
    (newPage c1renderer c1req "Home" c1ctx).map (fun pg => mlookup pg.Props "errors")
        = Except.ok (some (Val.vErrMap [])) ∧
      Val.vErrMap [] ≠ Val.vStr "caller" := by
  exact ⟨rfl, by decide⟩

/-- C1 (witness): the amended theorem applied at the concrete counterexample
page: the synthetic always-prop's value is the one in the mapping. -/
theorem C1_witness :
    mlookup c1page.Props "errors" = some (Val.vErrMap []) := by
  exact C1_validation_errors_appended_overrides c1renderer c1req "Home" c1ctx c1page rfl rfl

/-- C2: the effective concurrency handed to prop resolution by `Render` is
the renderer's configured default when the per-request override is 0, and is
coerced to 0 (sequential, not unlimited) when the override is negative. -/
theorem C2_effective_concurrency (ctx : RenderContext) (r : Renderer) :
    (ctx.Concurrency = 0 → 0 ≤ r.concurrency →
      renderResolveConcurrency ctx r = r.concurrency) ∧
    (ctx.Concurrency < 0 → renderResolveConcurrency ctx r = 0) := by
  constructor
  · intro h0 hd
    rw [renderResolveConcurrency, cmpOrInt]
    rw [h0]
    simp only [ne_eq, not_true_eq_false, if_false]
    exact max_eq_left hd
  · intro hneg
    rw [renderResolveConcurrency, cmpOrInt]
    rw [if_pos (by omega)]
    exact max_eq_right (le_of_lt hneg)

/-- C2 (witness): with a configured default of 4, an override of 0 yields 4
and an override of -3 yields 0. -/
theorem C2_witness :
    renderResolveConcurrency c2ctxZero { version := "", concurrency := 4 } = 4 ∧
      renderResolveConcurrency c2ctxNeg { version := "", concurrency := 4 } = 0 := by
  constructor
  · exact (C2_effective_concurrency c2ctxZero { version := "", concurrency := 4 }).1
      rfl (by decide)
  · exact (C2_effective_concurrency c2ctxNeg { version := "", concurrency := 4 }).2
      (by decide)

/-- C3: on a partial request for the rendered component, an ignorable prop is
excluded from the resolved mapping exactly when a non-empty whitelist misses
its key or a non-empty blacklist contains it, and an always-prop
(`ignorable = false`) is never excluded by these filters (keys assumed
pairwise distinct, all surviving resolutions successful). -/
theorem C3_partial_filter (props : List InertiaProp) (wl bl : List String)
    (conc : Int) (m' : List (String × Val))
    (hok : resolvePartialComponentRequest props wl bl conc = Except.ok m')
    (hnd : (props.map InertiaProp.key).Nodup) :
    ∀ p ∈ props,
      (p.ignorable = true →
        (p.key ∉ mkeys m' ↔ ((wl ≠ [] ∧ p.key ∉ wl) ∨ (bl ≠ [] ∧ p.key ∈ bl)))) ∧
      (p.ignorable = false → p.key ∈ mkeys m') := by
  have hchar : ∀ k, k ∈ mkeys m' ↔
      ∃ q ∈ props, partialExcluded q wl bl = false ∧ q.key = k := by
    intro k
    rw [mem_mkeys_resolvePartialGo wl bl props [] [] m' hok k]
    simp
  intro p hp
  constructor
  · intro hi
    constructor
    · intro hnotin
      cases hex : partialExcluded p wl bl with
      | false => exact absurd ((hchar p.key).mpr ⟨p, hp, hex, rfl⟩) hnotin
      | true => exact (partialExcluded_eq_true_iff p wl bl hi).mp hex
    · intro hcond hin
      obtain ⟨q, hq, hqex, hqk⟩ := (hchar p.key).mp hin
      have hqp : q = p := List.inj_on_of_nodup_map hnd hq hp hqk
      rw [hqp, (partialExcluded_eq_true_iff p wl bl hi).mpr hcond] at hqex
      cases hqex
  · intro hif
    exact (hchar p.key).mpr ⟨p, hp, partialExcluded_always_false p wl bl hif, rfl⟩

/-- C3 (witness): whitelist {a, b} over ignorable keys a, b, c resolves a and
b, never c, and the always-prop survives untouched. -/
theorem C3_witness :
    "c" ∉ mkeys c3result ∧ "a" ∈ mkeys c3result ∧ "auth" ∈ mkeys c3result := by
  have h := C3_partial_filter c3props ["a", "b"] [] 1 c3result rfl (by decide)
  refine ⟨?_, ?_, ?_⟩
  · exact ((h (NewProp "c" (Val.vInt 3) none) (by decide)).1 rfl).mpr (Or.inl (by decide))
  · have hiff := (h (NewProp "a" (Val.vInt 1) none) (by decide)).1 rfl
    by_contra hna
    exact absurd (hiff.mp hna) (by decide)
  · exact (h (NewAlways "auth" (Val.vStr "user")) (by decide)).2 rfl

/-- C4: if any resolved prop fails — in the full-render loop, or among the
sequential or concurrent props of a partial request — the whole resolution
returns an error wrapping a failing prop's key, and (being the error arm of
`Except`) no mapping at all. -/
theorem C4_error_propagation (props : List InertiaProp) (wl bl : List String)
    (conc : Int) :
    ((∃ p ∈ props, p.lazy = false ∧ ∃ msg, p.value = Except.error msg) →
      ∃ e, makePropsFull props [] = Except.error e ∧
        ∃ p ∈ props, p.lazy = false ∧ ∃ msg, p.value = Except.error msg ∧
          e = wrapPropErr p.key msg) ∧
    ((∃ p ∈ props, partialExcluded p wl bl = false ∧ ∃ msg, p.value = Except.error msg) →
      ∃ e, resolvePartialComponentRequest props wl bl conc = Except.error e ∧
        ∃ p ∈ props, partialExcluded p wl bl = false ∧
          ∃ msg, p.value = Except.error msg ∧
            (e = wrapPropErr p.key msg ∨ e = wrapConcurrentErr (wrapPropErr p.key msg))) := by
  constructor
  · rintro ⟨p, hp, hpl, msg, hmsg⟩
    cases hr : makePropsFull props [] with
    | ok m' =>
      obtain ⟨v, hv⟩ := makePropsFull_ok_resolves props [] m' hr p hp hpl
      rw [hmsg] at hv
      cases hv
    | error e =>
      obtain ⟨q, hq, hql, msg', hmsg', he⟩ := makePropsFull_error_shape props [] e hr
      exact ⟨e, rfl, q, hq, hql, msg', hmsg', he⟩
  · rintro ⟨p, hp, hpx, msg, hmsg⟩
    cases hr : resolvePartialGo wl bl props [] [] with
    | ok m' =>
      obtain ⟨v, hv⟩ := (resolvePartialGo_ok_resolves wl bl props [] [] m' hr).1 p hp hpx
      rw [hmsg] at hv
      cases hv
    | error e =>
      obtain ⟨q, hq, msg', hmsg', he⟩ := resolvePartialGo_error_shape wl bl props [] [] e hr
      rcases hq with ⟨hq1, hq2⟩ | hq1
      · exact ⟨e, hr, q, hq1, hq2, msg', hmsg', he⟩
      · exact absurd hq1 (List.not_mem_nil q)

/-- C4 (witness): one failing prop makes the full-render loop and the partial
resolution both return a wrapped error and no mapping. -/
theorem C4_witness :
    (∃ e, makePropsFull [c4bad] [] = Except.error e ∧
      ∃ p ∈ [c4bad], p.lazy = false ∧ ∃ msg, p.value = Except.error msg ∧
        e = wrapPropErr p.key msg) ∧
    ∃ e, resolvePartialComponentRequest [c4bad] ["boom"] [] 1 = Except.error e ∧
      ∃ p ∈ [c4bad], partialExcluded p ["boom"] [] = false ∧
        ∃ msg, p.value = Except.error msg ∧
          (e = wrapPropErr p.key msg ∨ e = wrapConcurrentErr (wrapPropErr p.key msg)) := by
  have h := C4_error_propagation [c4bad] ["boom"] [] 1
  exact ⟨h.1 ⟨c4bad, by decide, rfl, "kaput", rfl⟩,
         h.2 ⟨c4bad, by decide, rfl, "kaput", rfl⟩⟩

/-- C5 (counterexample): a lazy prop whose key is shared with a non-lazy prop
does see its key in the full-render mapping, so "the key of a prop with
lazy=true never appears in the mapping" fails as stated. -/
theorem C5_counterexample :
    (∃ p ∈ c5props, p.lazy = true ∧ p.key = "x") ∧
      makePropsFull c5props [] = Except.ok [("x", Val.vInt 1)] ∧
      "x" ∈ mkeys [("x", Val.vInt 1)] := by
  exact ⟨⟨NewOptional "x" (Except.ok (Val.vStr "lazyval")), by decide, rfl, rfl⟩,
         rfl, by decide⟩

/-- C5 (amended): on a successful full render the mapping's keys are exactly
the keys of the props with `lazy = false`; in particular a lazy prop's key is
absent whenever no non-lazy prop shares it. -/
theorem C5_full_render_keys (props : List InertiaProp) (m' : List (String × Val))
    (hok : makePropsFull props [] = Except.ok m') :
    (∀ k, k ∈ mkeys m' ↔ ∃ p ∈ props, p.lazy = false ∧ p.key = k) ∧
    ∀ p ∈ props, p.lazy = true →
      (∀ q ∈ props, q.lazy = false → q.key ≠ p.key) → p.key ∉ mkeys m' := by
  have hchar : ∀ k, k ∈ mkeys m' ↔ ∃ p ∈ props, p.lazy = false ∧ p.key = k := by
    intro k
    rw [mem_mkeys_makePropsFull props [] m' hok k]
    simp
  refine ⟨hchar, ?_⟩
  intro p hp hpl hq hin
  obtain ⟨q, hqmem, hql, hqk⟩ := (hchar p.key).mp hin
  exact absurd hqk (hq q hqmem hql)

/-- C5 (witness): the amended characterization at a concrete full render — the
eager key is present, the optional (lazy) key is absent. -/
theorem C5_witness :
    "a" ∈ mkeys [("a", Val.vInt 1)] ∧ "opt" ∉ mkeys [("a", Val.vInt 1)] := by
  have h := C5_full_render_keys c5wprops [("a", Val.vInt 1)] rfl
  constructor
  · exact (h.1 "a").mpr ⟨NewProp "a" (Val.vInt 1) none, by decide, rfl, rfl⟩
  · exact h.2 (NewOptional "opt" (Except.ok Val.vNil)) (by decide) rfl (by decide)

/-- C6: the deferred-prop index is nil on a partial request for the rendered
component; on a full render it maps each group name to the keys of the
deferred props of that group, in prop order, and `NewDeferred` falls back to
the default group when none is given. -/
theorem C6_deferred_index (req : Request) (name : String) (props : List InertiaProp) :
    (isPartialComponentRequest req name = true → makeDeferredProps req name props = none) ∧
    (isPartialComponentRequest req name = false →
      ∃ dm, makeDeferredProps req name props = some dm ∧
        ∀ g, mlookup dm g =
          if deferredKeysAt props g = [] then none else some (deferredKeysAt props g)) ∧
    (∀ k fn, (NewDeferred k fn none).group = DefaultDeferredGroup) ∧
    (∀ k fn opts, opts.Group = "" →
      (NewDeferred k fn (some opts)).group = DefaultDeferredGroup) := by
  refine ⟨?_, ?_, ?_, ?_⟩
  · intro h
    rw [makeDeferredProps, if_pos h]
  · intro h
    rw [makeDeferredProps, if_neg (by simp [h])]
    refine ⟨_, rfl, ?_⟩
    intro g
    rw [mlookup_deferredFold]
    rfl
  · intro k fn
    rfl
  · intro k fn opts hg
    simp [NewDeferred, cmpOrStr, hg]

/-- C6 (witness): a deferred prop of group g1 appears under g1 on a full
render and the whole index is nil on a partial render for the component. -/
theorem C6_witness :
    makeDeferredProps c6partialReq "Home" c6props = none ∧
    ∃ dm, makeDeferredProps c6fullReq "Home" c6props = some dm ∧
      mlookup dm "g1" = some ["d1"] := by
  have h1 := (C6_deferred_index c6partialReq "Home" c6props).1 rfl
  obtain ⟨dm, hdm, hg⟩ := (C6_deferred_index c6fullReq "Home" c6props).2.1 rfl
  refine ⟨h1, dm, hdm, ?_⟩
  rw [hg "g1"]
  decide

/-- C7: a protocol request whose version header differs from the server
version is answered by the version-mismatch handler on the initial connection
state, independently of the downstream handler (which never runs); the
default handler answers 409 Conflict — never 200 — with the request URL in
the `X-Inertia-Location` header. -/
theorem C7_version_mismatch (r : Renderer) (mmh emh : Request → Conn → Conn)
    (next next' : Request → List WriterOp) (req : Request)
    (hi : isInertiaRequest req = true) (hv : req.headerXInertiaVersion ≠ r.version) :
    serveMiddleware r mmh emh next req = mmh req c0conn ∧
    serveMiddleware r mmh emh next req = serveMiddleware r mmh emh next' req ∧
    (serveMiddleware r DefaultVersionMismatchHandler emh next req).status = 409 ∧
    (serveMiddleware r DefaultVersionMismatchHandler emh next req).status ≠ 200 ∧
    mlookup (serveMiddleware r DefaultVersionMismatchHandler emh next req).headers
        "X-Inertia-Location" = some req.requestURI := by
  have hstep : ∀ (h1 : Request → Conn → Conn) (nx : Request → List WriterOp),
      serveMiddleware r h1 emh nx req = h1 req c0conn := by
    intro h1 nx
    simp [serveMiddleware, hi, hv, c0conn]
  have hloc : serveMiddleware r DefaultVersionMismatchHandler emh next req =
      { c0conn with
          headers := goInsert (hDel (hDel c0conn.headers "Vary") "X-Inertia")
            "X-Inertia-Location" req.requestURI
          status := 409 } := by
    rw [hstep DefaultVersionMismatchHandler next]
    simp [DefaultVersionMismatchHandler, Location, hi]
  refine ⟨hstep mmh next, (hstep mmh next).trans (hstep mmh next').symm, ?_, ?_, ?_⟩
  · rw [hloc]
  · rw [hloc]
    show (409 : Nat) ≠ 200
    decide
  · rw [hloc]
    exact mlookup_goInsert_self _ _ _

/-- C7 (witness): version header 1.0.0 against server version 1.0.1 yields a
409 with the same URL in the protocol location header, never a 200. -/
theorem C7_witness :
    (serveMiddleware c7r DefaultVersionMismatchHandler DefaultEmptyResponseHandler
        c7next c7req).status = 409 ∧
    (serveMiddleware c7r DefaultVersionMismatchHandler DefaultEmptyResponseHandler
        c7next c7req).status ≠ 200 ∧
    mlookup (serveMiddleware c7r DefaultVersionMismatchHandler DefaultEmptyResponseHandler
        c7next c7req).headers "X-Inertia-Location" = some "/page" := by
  have h := C7_version_mismatch c7r DefaultVersionMismatchHandler
    DefaultEmptyResponseHandler c7next c7next c7req rfl (by decide)
  exact ⟨h.2.2.1, h.2.2.2.1, h.2.2.2.2⟩

/-- C8: for a protocol request with a matching version whose handler leaves a
buffered 302 and a non-empty body, the flushed status is 303 exactly when the
method is PATCH, PUT or DELETE, and stays 302 otherwise; the buffered body is
flushed unchanged either way (the rewrite acts once on the buffer, after the
handler and before the single flush to the connection). -/
theorem C8_302_rewrite (r : Renderer) (mmh emh : Request → Conn → Conn)
    (next : Request → List WriterOp) (req : Request)
    (hi : isInertiaRequest req = true) (hv : req.headerXInertiaVersion = r.version)
    (h302 : (runBuffered (next req)).statusCode = 302)
    (hbody : (runBuffered (next req)).body ≠ []) :
    ((seeOtherMethods.contains req.method = true →
        (serveMiddleware r mmh emh next req).status = 303) ∧
     (seeOtherMethods.contains req.method = false →
        (serveMiddleware r mmh emh next req).status = 302)) ∧
    (serveMiddleware r mmh emh next req).body = (runBuffered (next req)).body := by
  cases hc : seeOtherMethods.contains req.method with
  | true =>
    have hm : req.method ∈ seeOtherMethods := by simpa using hc
    refine ⟨⟨fun _ => ?_, fun h => nomatch h⟩, ?_⟩
    · simp [serveMiddleware, hi, hv, h302, hm, hbody]
    · simp [serveMiddleware, hi, hv, h302, hm, hbody]
  | false =>
    have hm : req.method ∉ seeOtherMethods := by simpa using hc
    refine ⟨⟨fun h => (nomatch h), fun _ => ?_⟩, ?_⟩
    · simp [serveMiddleware, hi, hv, h302, hm, hbody]
    · simp [serveMiddleware, hi, hv, h302, hm, hbody]

/-- C8 (witness): a handler-issued 302 flushes as 303 for a PATCH request and
as an unchanged 302 for a GET request. -/
theorem C8_witness :
    (serveMiddleware c8r DefaultVersionMismatchHandler DefaultEmptyResponseHandler
        c8next c8reqPatch).status = 303 ∧
    (serveMiddleware c8r DefaultVersionMismatchHandler DefaultEmptyResponseHandler
        c8next c8reqGet).status = 302 := by
  have h1 := C8_302_rewrite c8r DefaultVersionMismatchHandler DefaultEmptyResponseHandler
    c8next c8reqPatch rfl rfl rfl (by decide)
  have h2 := C8_302_rewrite c8r DefaultVersionMismatchHandler DefaultEmptyResponseHandler
    c8next c8reqGet rfl rfl rfl (by decide)
  exact ⟨h1.1.1 rfl, h2.1.2 rfl⟩

theorem comma_string_data : (",").data = [','] := rfl

/-- C9: the header list extraction returns nil for an empty header value; a
non-empty value is split on commas with each field trimmed; and appending a
trailing comma appends one empty-string field that is kept, not dropped. -/
theorem C9_extract_header_list :
    extractHeaderValueList "" = none ∧
    (∀ h : String, h ≠ "" →
      extractHeaderValueList h = some ((stringsSplitComma h).map trimSpace)) ∧
    ∀ (h : String) (l : List String), h ≠ "" → extractHeaderValueList h = some l →
      extractHeaderValueList (h ++ ",") = some (l ++ [""]) := by
  refine ⟨rfl, ?_, ?_⟩
  · intro h hne
    rw [extractHeaderValueList, if_neg hne]
  · intro h l hne hl
    rw [extractHeaderValueList, if_neg hne] at hl
    injection hl with hl
    rw [extractHeaderValueList, if_neg (string_append_comma_ne_empty h)]
    rw [← hl]
    rw [stringsSplitComma, stringsSplitComma]
    rw [string_data_append, comma_string_data, splitCommaAux_append_comma]
    rw [List.map_append]
    rfl

/-- C9 (witness): `"a, b"` splits to the trimmed fields a and b, and a
trailing comma adds a kept trailing empty field. -/
theorem C9_witness :
    extractHeaderValueList "a, b" = some ["a", "b"] ∧
      extractHeaderValueList "a, b," = some ["a", "b", ""] := by
  have h1 := C9_extract_header_list.2.1 "a, b" (by decide)
  have h2 := C9_extract_header_list.2.2 "a, b" ["a", "b"] (by decide) (by decide)
  constructor
  · exact h1.trans (by decide)
  · have hs : ("a, b" ++ ",") = "a, b," := by decide
    rw [← hs]
    simpa using h2

/-- C10: two requests identical except for the reset-list header produce the
same resolution outcome, and on success pages that agree on every field other
than MergeProps — the reset list influences only the merge-key list. -/
theorem C10_reset_only_affects_merge (r : Renderer) (req : Request) (name : String)
    (ctx : RenderContext) (resetVal : String) :
    (newPage r { req with headerXInertiaReset := resetVal } name ctx).map pageSansMergeProps
      = (newPage r req name ctx).map pageSansMergeProps := by
  have hm : makeProps { req with headerXInertiaReset := resetVal } name
      (ctx.Props ++ [makeValidationErrors ctx.ValidationErrorer ctx.ErrorBag])
      ctx.Concurrency
      = makeProps req name
      (ctx.Props ++ [makeValidationErrors ctx.ValidationErrorer ctx.ErrorBag])
      ctx.Concurrency := rfl
  rw [newPage, newPage, hm]
  cases h : makeProps req name
      (ctx.Props ++ [makeValidationErrors ctx.ValidationErrorer ctx.ErrorBag])
      ctx.Concurrency with
  | error e => rfl
  | ok props => rfl

